import Mathlib

/-!
Shallow embedding of the KIMAI MCP server core (src/server.py): the API
client's URL construction, error normalisation and empty-body handling,
the output truncation helper, the single-timesheet markdown formatter,
the stop-timesheet guard, and the timesheet summary aggregator.

Python strings are modelled as Lean `String`s viewed as their character
lists (`String.data`): Python `len`, slicing and `str.join` are given
explicit list-based definitions below.  Python `float` quantities
(hours, percentages) are modelled as exact rationals `ℚ`; the `%.2f`
format is modelled on those rationals.  JSON values reaching the
modelled code are modelled by the inductive `PyVal` / association-list
dictionaries.
-/

namespace KimaiMCP

/-- Python `len(s)`: the number of characters of the string. -/
def pyLen (s : String) : Nat := s.data.length

/-- Python `s[:n]`: the first `n` characters of the string. -/
def pyTake (s : String) (n : Nat) : String := String.mk (s.data.take n)

/-- Python `s.rstrip('/')`: drop all trailing `'/'` characters. -/
def pyRstripSlash (s : String) : String :=
  String.mk ((s.data.reverse.dropWhile (fun c => c = '/')).reverse)

/-- Python `"\n".join(lines)`. -/
def joinLines : List String → String
  | [] => ""
  | [l] => l
  | l :: ls => l ++ "\n" ++ joinLines ls

/-- `leadsWith pat l` decides whether the character list `l` starts with
`pat` (used to define substring containment for the error-message claims). -/
def leadsWith : List Char → List Char → Bool
  | [], _ => true
  | _ :: _, [] => false
  | p :: ps, c :: cs => p = c && leadsWith ps cs

/-- `hasChars pat l` decides whether `pat` occurs as a contiguous run
inside the character list `l`. -/
def hasChars (pat : List Char) : List Char → Bool
  | [] => leadsWith pat []
  | c :: cs => leadsWith pat (c :: cs) || hasChars pat cs

/-- `strContains s pat`: the string `s` contains `pat` as a substring
(contiguous character run). -/
def strContains (s pat : String) : Bool := hasChars pat.data s.data

/-- `strEnds s pat`: the string `s` ends with `pat`. -/
def strEnds (s pat : String) : Bool := leadsWith pat.data.reverse s.data.reverse

lemma pyLen_append (a b : String) : pyLen (a ++ b) = pyLen a + pyLen b := by
  simp [pyLen, String.data_append]

lemma leadsWith_refl_append (p rest : List Char) : leadsWith p (p ++ rest) = true := by
  induction p with
  | nil => simp [leadsWith]
  | cons c cs ih => simp [leadsWith, ih]

lemma hasChars_append_of_hasChars (pat a : List Char) {l : List Char}
    (h : hasChars pat l = true) : hasChars pat (a ++ l) = true := by
  induction a with
  | nil => simpa using h
  | cons c cs ih => simp [hasChars, ih]

lemma hasChars_of_middle (pat a b : List Char) :
    hasChars pat (a ++ (pat ++ b)) = true := by
  apply hasChars_append_of_hasChars
  cases pat with
  | nil =>
    cases b with
    | nil => simp [hasChars, leadsWith]
    | cons c cs => simp [hasChars, leadsWith]
  | cons p ps =>
    have h := leadsWith_refl_append (p :: ps) b
    simp only [List.cons_append] at h
    simp [hasChars, h]

/-- Substring containment for a string decomposed as `a ++ pat ++ b`. -/
lemma strContains_of_decomp (a pat b : String) :
    strContains (a ++ pat ++ b) pat = true := by
  have h : (a ++ pat ++ b).data = a.data ++ (pat.data ++ b.data) := by
    simp [String.data_append]
  simp [strContains, h, hasChars_of_middle]

lemma strEnds_of_decomp (a pat : String) : strEnds (a ++ pat) pat = true := by
  have h : (a ++ pat).data.reverse = pat.data.reverse ++ a.data.reverse := by
    simp [String.data_append]
  simp [strEnds, h, leadsWith_refl_append]

/-! ## JSON / Python values

The values the client reads out of a parsed JSON response body
(`e.response.json()` in `KimaiClient.request`).  Only scalar members are
needed by the claims; a parsed JSON *object* is an association list in
document order. -/

inductive PyVal where
  | pstr : String → PyVal
  | pint : Int → PyVal
  | pbool : Bool → PyVal
deriving DecidableEq

/-- A parsed JSON object, in document order. -/
def PyDict : Type := List (String × PyVal)

/-- A single quote character (for Python `repr` of strings). -/
def squote : String := String.singleton (Char.ofNat 39)

/-- Python `str(v)` for a scalar value: a string prints bare, an int in
decimal, a bool as `True`/`False`. -/
def pyStrVal : PyVal → String
  | .pstr s => s
  | .pint n => toString n
  | .pbool b => if b then "True" else "False"

/-- Python `repr(v)` for a scalar value: a string prints single-quoted. -/
def pyReprVal : PyVal → String
  | .pstr s => squote ++ s ++ squote
  | .pint n => toString n
  | .pbool b => if b then "True" else "False"

/-- The comma-separated interior of Python `str(dict)`. -/
def pyReprFields : List (String × PyVal) → String
  | [] => ""
  | [(k, v)] => squote ++ k ++ squote ++ ": " ++ pyReprVal v
  | (k, v) :: rest =>
      squote ++ k ++ squote ++ ": " ++ pyReprVal v ++ ", " ++ pyReprFields rest

/-- Python `str(d)` for a dict: e.g. `\x7b'message': 'Not found'\x7d`. -/
def pyReprDict (d : PyDict) : String := "\x7b" ++ pyReprFields d ++ "\x7d"

/-- Python `d.get(k)` on an association-list dict (first match, as keys
of a parsed JSON object are unique). -/
def dictGet (d : PyDict) (k : String) : Option PyVal :=
  match d with
  | [] => none
  | (k', v) :: rest => if k' = k then some v else dictGet rest k

/-! ## API client: `KimaiClient.request` (src/server.py, lines 604-663) -/

/-- An HTTP response as seen by the error path of `KimaiClient.request`:
its status code, its raw body text (`e.response.text`), and the result of
attempting to parse that text as a JSON object (`e.response.json()`;
`none` when parsing raises, i.e. the body is not a JSON object). -/
structure HttpResponse where
  statusCode : Nat
  rawText : String
  jsonBody : Option PyDict

/-- `error_detail` of the `httpx.HTTPStatusError` handler
(src/server.py, lines 647-652): `error_data.get("message", str(error_data))`
when the body parses as JSON, else the raw response text. -/
def errorDetail (r : HttpResponse) : String :=
  match r.jsonBody with
  | some d =>
    match dictGet d "message" with
    | some v => pyStrVal v
    | none => pyReprDict d
  | none => r.rawText

/-- The exception message raised for a non-2xx status
(src/server.py, lines 654-657). -/
def kimaiErrorMessage (r : HttpResponse) : String :=
  "KIMAI API error (" ++ toString r.statusCode ++ "): " ++ errorDetail r ++
    ". Please check your request parameters and try again."

/-- The fixed remediation hint the error message ends with. -/
def remediationHint : String :=
  ". Please check your request parameters and try again."

/-- Success-path body handling of `KimaiClient.request`
(src/server.py, lines 641-644), reached after `raise_for_status`
passes: on status 204 (`response.status_code == 204`) or an empty body
(`not response.content`), return the synthetic marker
`\x7b"success": True\x7d` without invoking the JSON parser; otherwise
return what the parser (`response.json()`, passed in as `parse` since it
is external code) produces on the body. -/
def requestSuccessResult (statusCode : Nat) (content : String)
    (parse : String → Except String PyDict) : Except String PyDict :=
  if statusCode = 204 ∨ content = "" then .ok [("success", .pbool true)]
  else parse content

/-! ## URL construction (src/server.py, lines 596-597 and 626)

`KimaiClient.__init__` stores `config.base_url.rstrip('/')`;
`request` computes `urljoin(self.base_url, f"/api/\x7bendpoint\x7d")`.
`urljoinAbs` models `urllib.parse.urljoin` for the case actually
exercised: the base is an absolute `scheme://host...` URL and the
reference is an absolute path (starts with `/`), for which RFC 3986
resolution keeps the base's scheme and authority and replaces the whole
path with the reference. -/

/-- Split a character list at the first `':'`: the part before it and
the remainder (including the `':'`). -/
def splitAtColon : List Char → (List Char × List Char)
  | [] => ([], [])
  | c :: cs =>
    if c = ':' then ([], c :: cs)
    else
      let (a, b) := splitAtColon cs
      (c :: a, b)

/-- `urllib.parse.urljoin base ref` for an absolute-path `ref` against an
absolute `scheme://authority/path` base: scheme and authority are taken
from the base, the path is replaced by `ref`. -/
def urljoinAbs (base ref : String) : String :=
  let (scheme, rest) := splitAtColon base.data
  let afterScheme := rest.drop 3  -- drop "://"
  let authority := afterScheme.takeWhile (fun c => c ≠ '/')
  String.mk scheme ++ "://" ++ String.mk authority ++ ref

/-- The request URL built by `KimaiClient` for a configured base URL and
an endpoint path: `urljoin(base_url.rstrip('/'), "/api/" + endpoint)`
(src/server.py, lines 597 and 626). -/
def requestUrl (base_url endpoint : String) : String :=
  urljoinAbs (pyRstripSlash base_url) ("/api/" ++ endpoint)

/-- The URL the spec's claim describes: the configured base URL with
trailing slashes removed, then `"/api/"`, then the path, preserving
everything in the configured base URL.  (Stated from the spec's words,
for comparison with `requestUrl`.) -/
def specClaimUrl (base_url endpoint : String) : String :=
  pyRstripSlash base_url ++ "/api/" ++ endpoint

/-! ## Output truncation (src/server.py, lines 27 and 670-676) -/

def CHARACTER_LIMIT : Nat := 25000

/-- The marker appended on truncation at the default limit. -/
def truncationMarker (limit : Nat) : String :=
  "\n\n... [Output truncated at " ++ toString limit ++ " characters]"

/-- `truncate_if_needed(text, limit)`: return `text` unchanged when it
fits, else its first `limit - 50` characters followed by the marker. -/
def truncate_if_needed (text : String) (limit : Nat := CHARACTER_LIMIT) : String :=
  if pyLen text ≤ limit then text
  else pyTake text (limit - 50) ++ truncationMarker limit

/-! ## Single-timesheet markdown (src/server.py, lines 679-705)

A timesheet record as read by `format_timesheet_markdown` and the
`stop_timesheet` branch.  Absent keys and JSON `null` are both modelled
as `none` (the code distinguishes them only in the `End:` line default,
which no claim evaluates at a `null`-valued key; rendering there follows
the absent-key case). -/

structure Timesheet where
  id : Option Int
  project : Option Int
  activity : Option Int
  begin : Option String
  end_ : Option String
  duration : Option Int
  billable : Bool      -- Python truthiness of ts.get("billable")
  exported : Bool      -- Python truthiness of ts.get("exported")
  description : Option String
  tags : Option (List String)
  rate : Option ℚ

/-- Python `str` of an optional int, as interpolated by an f-string
(`None` when missing). -/
def pyStrOptInt : Option Int → String
  | some n => toString n
  | none => "None"

/-- Python `str` of an optional string field (`None` when missing). -/
def pyStrOptStr : Option String → String
  | some s => s
  | none => "None"

/-- Python `f"\x7bq:.2f\x7d"` on the exact rational value of the float:
round to hundredths (ties away from zero on the rational model) and
print with two decimals. -/
def pyFormat2f (q : ℚ) : String :=
  let n : ℤ := round (q * 100)
  let a := n.natAbs
  let sign := if n < 0 then "-" else ""
  sign ++ toString (a / 100) ++ "." ++
    (if a % 100 < 10 then "0" else "") ++ toString (a % 100)

/-- Python `f"\x7bq:.1f\x7d"` on the exact rational value of the float. -/
def pyFormat1f (q : ℚ) : String :=
  let n : ℤ := round (q * 10)
  let a := n.natAbs
  let sign := if n < 0 then "-" else ""
  sign ++ toString (a / 10) ++ "." ++ toString (a % 10)

/-- Python `str(float)` restricted to the integral values at which the
embedding evaluates it (e.g. `1.0`). -/
def pyStrFloat (q : ℚ) : String :=
  if q.den = 1 then toString q.num ++ ".0" else toString q

/-- Python `", ".join(tags)`. -/
def joinCommaSep : List String → String
  | [] => ""
  | [t] => t
  | t :: ts => t ++ ", " ++ joinCommaSep ts

/-- The `lines` list built by `format_timesheet_markdown`
(src/server.py, lines 684-703), including the conditional description,
tags and rate lines (appended when the corresponding Python value is
truthy: a non-empty string, a non-empty list, a non-zero number). -/
def formatTimesheetLines (t : Timesheet) : List String :=
  [ "## Timesheet #" ++ pyStrOptInt t.id,
    "**Status:** " ++ (if t.end_.isNone then "⏱️ RUNNING" else "✓ Completed"),
    "**Project ID:** " ++ pyStrOptInt t.project,
    "**Activity ID:** " ++ pyStrOptInt t.activity,
    "**Start:** " ++ pyStrOptStr t.begin,
    "**End:** " ++ (match t.end_ with | some e => e | none => "Still running..."),
    "**Duration:** " ++ pyFormat2f ((t.duration.getD 0 : ℚ) / 3600) ++
      " hours (" ++ toString (t.duration.getD 0) ++ " seconds)",
    "**Billable:** " ++ (if t.billable then "Yes" else "No"),
    "**Exported:** " ++ (if t.exported then "Yes" else "No") ]
  ++ (match t.description with
      | some s => if s = "" then [] else ["**Description:** " ++ s]
      | none => [])
  ++ (match t.tags with
      | some l => if l = [] then [] else ["**Tags:** " ++ joinCommaSep l]
      | none => [])
  ++ (match t.rate with
      | some r => if r = 0 then [] else ["**Rate:** " ++ pyStrFloat r]
      | none => [])

/-- `format_timesheet_markdown(timesheet)`. -/
def format_timesheet_markdown (t : Timesheet) : String :=
  joinLines (formatTimesheetLines t)

/-- The text returned by the `get_timesheet` tool branch for
`format == "markdown"` (src/server.py, lines 1181-1182): the rendered
markdown, with no truncation applied. -/
def getTimesheetMarkdownOutput (t : Timesheet) : String :=
  format_timesheet_markdown t

/-! ## stop_timesheet guard (src/server.py, lines 1203-1221) -/

/-- What the `stop_timesheet` branch does after fetching the current
timesheet: either return the error text without issuing any further
request, or issue the PATCH that sets the end time. -/
inductive StopOutcome where
  | errorTxt : String → StopOutcome
  | patchEnd : StopOutcome
deriving DecidableEq

/-- The decision taken at src/server.py lines 1207-1217: if the fetched
timesheet's `end` is not `None`, return the error text; otherwise PATCH
the end time. -/
def stopTimesheetDecision (id : Int) (current : Timesheet) : StopOutcome :=
  if current.end_.isSome then
    .errorTxt ("❌ Error: Timesheet #" ++ toString id ++
      " is not running (already has an end time).")
  else .patchEnd

/-! ## Summary aggregator (src/server.py, lines 1476-1541)

A time entry as read by the `get_timesheet_summary` branch: only
`duration`, `billable`, `project` and `activity` are consulted.
`ts.get("duration", 0)` defaults a missing duration to `0`;
`ts.get("project")` / `ts.get("activity")` give `None` for a missing or
null identifier, and `None` is itself a dict key, so missing identifiers
share one group. -/

structure Entry where
  duration : Option Int
  billable : Bool      -- Python truthiness of t.get("billable")
  project : Option Int
  activity : Option Int
deriving DecidableEq

/-- `ts.get("duration", 0)`. -/
def durOf (t : Entry) : Int := t.duration.getD 0

/-- One group accumulator: `\x7b"duration": 0, "count": 0\x7d` updated in
place. -/
structure Group where
  duration : Int
  count : Nat
deriving DecidableEq

/-- One iteration of the grouping loops (src/server.py, lines 1484-1489
and 1493-1498) on the insertion-ordered dict modelled as an association
list: update the existing group for the key, or append a fresh one. -/
def addEntry (m : List (Option Int × Group)) (k : Option Int) (d : Int) :
    List (Option Int × Group) :=
  match m with
  | [] => [(k, ⟨d, 1⟩)]
  | (k', g) :: rest =>
    if k' = k then (k', ⟨g.duration + d, g.count + 1⟩) :: rest
    else (k', g) :: addEntry rest k d

/-- The grouping loop over all entries, for a key projection. -/
def groupByKey (key : Entry → Option Int) (ts : List Entry) :
    List (Option Int × Group) :=
  ts.foldl (fun m t => addEntry m (key t) (durOf t)) []

/-- `by_project` (src/server.py, lines 1483-1489). -/
def by_project (ts : List Entry) : List (Option Int × Group) :=
  groupByKey (fun t => t.project) ts

/-- `by_activity` (src/server.py, lines 1492-1498). -/
def by_activity (ts : List Entry) : List (Option Int × Group) :=
  groupByKey (fun t => t.activity) ts

/-- `total_duration = sum(t.get("duration", 0) for t in timesheets)`. -/
def total_duration (ts : List Entry) : Int := (ts.map durOf).sum

/-- `billable_duration = sum(... for t in timesheets if t.get("billable"))`. -/
def billable_duration (ts : List Entry) : Int :=
  ((ts.filter (fun t => t.billable)).map durOf).sum

/-- `total_entries = len(timesheets)`. -/
def total_entries (ts : List Entry) : Nat := ts.length

/-- `total_hours = total_duration / 3600` (exact rational model of the
float). -/
def total_hours (ts : List Entry) : ℚ := (total_duration ts : ℚ) / 3600

/-- `billable_hours = billable_duration / 3600`. -/
def billable_hours (ts : List Entry) : ℚ := (billable_duration ts : ℚ) / 3600

/-- `non_billable_hours = total_hours - billable_hours`
(src/server.py, line 1480): a single subtraction, not an independent
filter-sum. -/
def non_billable_hours (ts : List Entry) : ℚ :=
  total_hours ts - billable_hours ts

/-- The billable percentage as rendered in the overview line
(src/server.py, line 1507): `(billable_hours/total_hours*100) if
total_hours > 0 else 0`. -/
def billablePctValue (ts : List Entry) : ℚ :=
  if 0 < total_hours ts then billable_hours ts / total_hours ts * 100 else 0

/-- The non-billable percentage as rendered (src/server.py, line 1508). -/
def nonBillablePctValue (ts : List Entry) : ℚ :=
  if 0 < total_hours ts then non_billable_hours ts / total_hours ts * 100 else 0

/-- Sum of the per-group seconds of a mapping. -/
def groupsDuration (m : List (Option Int × Group)) : Int :=
  (m.map (fun p => p.2.duration)).sum

/-- Sum of the per-group counts of a mapping. -/
def groupsCount (m : List (Option Int × Group)) : Nat :=
  (m.map (fun p => p.2.count)).sum

/-- Look up the group stored for a key (Python `m[k]`). -/
def findGroup (m : List (Option Int × Group)) (k : Option Int) : Option Group :=
  match m with
  | [] => none
  | (k', g) :: rest => if k' = k then some g else findGroup rest k

/-- The keys of a mapping, in dict (insertion) order. -/
def keysOf (m : List (Option Int × Group)) : List (Option Int) :=
  m.map (fun p => p.1)

/-- Append a key if it is new: what one grouping-loop iteration does to
the dict's key sequence. -/
def insertKey (acc : List (Option Int)) (k : Option Int) : List (Option Int) :=
  if k ∈ acc then acc else acc ++ [k]

/-- The distinct keys of a list in order of first occurrence. -/
def firstKeys (l : List (Option Int)) : List (Option Int) :=
  l.foldl insertKey []

/-! ### Rendering order (src/server.py, lines 1513 and 1520)

`sorted(mapping.items(), key=lambda x: x[1]["duration"], reverse=True)`:
Python's `sorted` is a stable sort, so the items are ordered by
descending summed duration with ties kept in dict (insertion) order.
The stable sort is modelled by `List.insertionSort`. -/

/-- The sort relation: earlier item has the larger-or-equal duration. -/
def durGE (a b : Option Int × Group) : Prop := b.2.duration ≤ a.2.duration

instance : DecidableRel durGE := fun a b =>
  inferInstanceAs (Decidable (b.2.duration ≤ a.2.duration))

instance : IsTotal (Option Int × Group) durGE :=
  ⟨fun a b => (le_total b.2.duration a.2.duration).imp (fun h => h) (fun h => h)⟩

instance : IsTrans (Option Int × Group) durGE :=
  ⟨fun _ _ _ h1 h2 => le_trans h2 h1⟩

/-- The `by_project` items in the order the rendering loop visits them. -/
def sortedByProject (ts : List Entry) : List (Option Int × Group) :=
  List.insertionSort durGE (by_project ts)

/-- The `by_activity` items in the order the rendering loop visits them. -/
def sortedByActivity (ts : List Entry) : List (Option Int × Group) :=
  List.insertionSort durGE (by_activity ts)

/-- The overview lines of the markdown summary (src/server.py,
lines 1501-1511). -/
def summaryOverviewLines (ts : List Entry) : List String :=
  [ "# Timesheet Summary Report",
    "",
    "## Overview",
    "**Total Entries:** " ++ toString (total_entries ts),
    "**Total Time:** " ++ pyFormat2f (total_hours ts) ++ " hours",
    "**Billable Time:** " ++ pyFormat2f (billable_hours ts) ++ " hours (" ++
      pyFormat1f (billablePctValue ts) ++ "%)",
    "**Non-Billable Time:** " ++ pyFormat2f (non_billable_hours ts) ++
      " hours (" ++ pyFormat1f (nonBillablePctValue ts) ++ "%)",
    "",
    "## By Project" ]

/-- One line of the by-project listing (src/server.py, line 1515). -/
def projectLine (p : Option Int × Group) : String :=
  "- Project #" ++ pyStrOptInt p.1 ++ ": " ++
    pyFormat2f ((p.2.duration : ℚ) / 3600) ++ " hours (" ++
    toString p.2.count ++ " entries)"

/-- One line of the by-activity listing (src/server.py, line 1522). -/
def activityLine (p : Option Int × Group) : String :=
  "- Activity #" ++ pyStrOptInt p.1 ++ ": " ++
    pyFormat2f ((p.2.duration : ℚ) / 3600) ++ " hours (" ++
    toString p.2.count ++ " entries)"

/-- The full markdown summary report (src/server.py, lines 1500-1524),
returned without truncation. -/
def summaryMarkdown (ts : List Entry) : String :=
  joinLines (summaryOverviewLines ts ++ (sortedByProject ts).map projectLine ++
    ["", "## By Activity"] ++ (sortedByActivity ts).map activityLine)

/-- Sum of the durations of the entries mapped to a given key. -/
def keyDuration (key : Entry → Option Int) (k : Option Int) (ts : List Entry) : Int :=
  ((ts.filter (fun t => key t = k)).map durOf).sum

/-- Number of entries mapped to a given key. -/
def keyCount (key : Entry → Option Int) (k : Option Int) (ts : List Entry) : Nat :=
  (ts.filter (fun t => key t = k)).length

/-! ### Aggregation lemmas -/

lemma groupsDuration_addEntry (m : List (Option Int × Group)) (k : Option Int)
    (d : Int) : groupsDuration (addEntry m k d) = groupsDuration m + d := by
  induction m with
  | nil => simp [addEntry, groupsDuration]
  | cons p rest ih =>
    obtain ⟨k', g⟩ := p
    by_cases h : k' = k
    · simp [addEntry, h, groupsDuration]
      ring
    · simp [addEntry, h, groupsDuration] at ih ⊢
      omega

lemma groupsCount_addEntry (m : List (Option Int × Group)) (k : Option Int)
    (d : Int) : groupsCount (addEntry m k d) = groupsCount m + 1 := by
  induction m with
  | nil => simp [addEntry, groupsCount]
  | cons p rest ih =>
    obtain ⟨k', g⟩ := p
    by_cases h : k' = k
    · simp [addEntry, h, groupsCount]
      ring
    · simp [addEntry, h, groupsCount] at ih ⊢
      omega

lemma groupsDuration_foldl (key : Entry → Option Int) :
    ∀ (ts : List Entry) (m : List (Option Int × Group)),
      groupsDuration (ts.foldl (fun m t => addEntry m (key t) (durOf t)) m) =
        groupsDuration m + total_duration ts
  | [], m => by simp [total_duration]
  | t :: ts, m => by
    rw [List.foldl_cons, groupsDuration_foldl key ts]
    rw [groupsDuration_addEntry]
    simp [total_duration]
    ring

lemma groupsCount_foldl (key : Entry → Option Int) :
    ∀ (ts : List Entry) (m : List (Option Int × Group)),
      groupsCount (ts.foldl (fun m t => addEntry m (key t) (durOf t)) m) =
        groupsCount m + ts.length
  | [], m => by simp
  | t :: ts, m => by
    rw [List.foldl_cons, groupsCount_foldl key ts]
    rw [groupsCount_addEntry]
    simp
    omega

lemma groupsDuration_groupByKey (key : Entry → Option Int) (ts : List Entry) :
    groupsDuration (groupByKey key ts) = total_duration ts := by
  have h := groupsDuration_foldl key ts []
  simpa [groupByKey, groupsDuration] using h

lemma groupsCount_groupByKey (key : Entry → Option Int) (ts : List Entry) :
    groupsCount (groupByKey key ts) = ts.length := by
  have h := groupsCount_foldl key ts []
  simpa [groupByKey, groupsCount] using h

lemma findGroup_addEntry_self (m : List (Option Int × Group)) (k : Option Int)
    (d : Int) :
    findGroup (addEntry m k d) k =
      some (match findGroup m k with
            | none => ⟨d, 1⟩
            | some g => ⟨g.duration + d, g.count + 1⟩) := by
  induction m with
  | nil => simp [addEntry, findGroup]
  | cons p rest ih =>
    obtain ⟨k', g⟩ := p
    by_cases h : k' = k
    · simp [addEntry, h, findGroup]
    · simp [addEntry, h, findGroup, ih]

lemma findGroup_addEntry_ne (d : Int) {k k' : Option Int} (h : k' ≠ k) :
    ∀ (m : List (Option Int × Group)),
      findGroup (addEntry m k d) k' = findGroup m k'
  | [] => by simp [addEntry, findGroup, Ne.symm h]
  | (k₀, g) :: rest => by
    by_cases h0 : k₀ = k
    · subst h0
      simp [addEntry, findGroup, Ne.symm h]
    · by_cases h1 : k₀ = k'
      · simp [addEntry, h0, findGroup, h1, h]
      · simp [addEntry, h0, findGroup, h1, findGroup_addEntry_ne d h rest]

lemma findGroup_foldl_some (key : Entry → Option Int) (k : Option Int) :
    ∀ (ts : List Entry) (m : List (Option Int × Group)) (g : Group),
      findGroup m k = some g →
      findGroup (ts.foldl (fun m t => addEntry m (key t) (durOf t)) m) k =
        some ⟨g.duration + keyDuration key k ts, g.count + keyCount key k ts⟩
  | [], m, g, hm => by simpa [keyDuration, keyCount] using hm
  | t :: ts, m, g, hm => by
    rw [List.foldl_cons]
    by_cases h : key t = k
    · have step : findGroup (addEntry m (key t) (durOf t)) k =
          some ⟨g.duration + durOf t, g.count + 1⟩ := by
        rw [h, findGroup_addEntry_self, hm]
      rw [findGroup_foldl_some key k ts _ _ step]
      simp [Option.some.injEq, Group.mk.injEq, keyDuration, keyCount,
        List.filter_cons, h]
      omega
    · have step : findGroup (addEntry m (key t) (durOf t)) k = some g := by
        rw [findGroup_addEntry_ne _ (fun hh => h hh.symm), hm]
      rw [findGroup_foldl_some key k ts _ _ step]
      simp [keyDuration, keyCount, List.filter_cons, h]

lemma findGroup_foldl_none (key : Entry → Option Int) (k : Option Int) :
    ∀ (ts : List Entry) (m : List (Option Int × Group)),
      findGroup m k = none →
      findGroup (ts.foldl (fun m t => addEntry m (key t) (durOf t)) m) k =
        (if ts.any (fun t => key t = k) then
          some ⟨keyDuration key k ts, keyCount key k ts⟩
         else none)
  | [], m, hm => by simpa using hm
  | t :: ts, m, hm => by
    rw [List.foldl_cons]
    by_cases h : key t = k
    · have step : findGroup (addEntry m (key t) (durOf t)) k =
          some ⟨durOf t, 1⟩ := by
        rw [h, findGroup_addEntry_self, hm]
      rw [findGroup_foldl_some key k ts _ _ step]
      simp [List.any_cons, h, Option.some.injEq, Group.mk.injEq,
        keyDuration, keyCount, List.filter_cons]
      omega
    · have step : findGroup (addEntry m (key t) (durOf t)) k = none := by
        rw [findGroup_addEntry_ne _ (fun hh => h hh.symm), hm]
      rw [findGroup_foldl_none key k ts _ step]
      simp [keyDuration, keyCount, List.filter_cons, List.any_cons, h]

lemma findGroup_groupByKey (key : Entry → Option Int) (k : Option Int)
    (ts : List Entry) :
    findGroup (groupByKey key ts) k =
      (if ts.any (fun t => key t = k) then
        some ⟨keyDuration key k ts, keyCount key k ts⟩
       else none) :=
  findGroup_foldl_none key k ts [] rfl

lemma keysOf_addEntry (k : Option Int) (d : Int) :
    ∀ (m : List (Option Int × Group)),
      keysOf (addEntry m k d) = insertKey (keysOf m) k
  | [] => by simp [addEntry, keysOf, insertKey]
  | (k₀, g) :: rest => by
    by_cases h0 : k₀ = k
    · subst h0
      simp [addEntry, keysOf, insertKey]
    · have ih := keysOf_addEntry k d rest
      have hne : ¬ k = k₀ := fun hh => h0 hh.symm
      calc keysOf (addEntry ((k₀, g) :: rest) k d)
          = k₀ :: keysOf (addEntry rest k d) := by simp [addEntry, h0, keysOf]
        _ = k₀ :: insertKey (keysOf rest) k := by rw [ih]
        _ = insertKey (k₀ :: keysOf rest) k := by
              by_cases hmem : k ∈ keysOf rest
              · simp [insertKey, hmem, hne]
              · simp [insertKey, hmem, hne]
        _ = insertKey (keysOf ((k₀, g) :: rest)) k := by simp [keysOf]

lemma keysOf_foldl (key : Entry → Option Int) :
    ∀ (ts : List Entry) (m : List (Option Int × Group)),
      keysOf (ts.foldl (fun m t => addEntry m (key t) (durOf t)) m) =
        (ts.map key).foldl insertKey (keysOf m)
  | [], m => by simp
  | t :: ts, m => by
    rw [List.foldl_cons, keysOf_foldl key ts, keysOf_addEntry]
    simp

/-- The keys of a grouping are the input keys in order of first
occurrence. -/
lemma keysOf_groupByKey (key : Entry → Option Int) (ts : List Entry) :
    keysOf (groupByKey key ts) = firstKeys (ts.map key) := by
  have h := keysOf_foldl key ts []
  simpa [groupByKey, firstKeys, keysOf] using h

lemma nodup_insertKey {acc : List (Option Int)} (k : Option Int)
    (h : acc.Nodup) : (insertKey acc k).Nodup := by
  by_cases hmem : k ∈ acc
  · simpa [insertKey, hmem] using h
  · simp [insertKey, hmem, List.nodup_append, h]

lemma nodup_foldl_insertKey :
    ∀ (l : List (Option Int)) (acc : List (Option Int)),
      acc.Nodup → (l.foldl insertKey acc).Nodup
  | [], acc, h => h
  | k :: l, acc, h => by
    rw [List.foldl_cons]
    exact nodup_foldl_insertKey l _ (nodup_insertKey k h)

/-- Group keys are distinct: each key owns exactly one group. -/
lemma nodup_keysOf_groupByKey (key : Entry → Option Int) (ts : List Entry) :
    (keysOf (groupByKey key ts)).Nodup := by
  rw [keysOf_groupByKey]
  exact nodup_foldl_insertKey _ [] List.nodup_nil

lemma filter_eq_nil_of_not_mem_keys {m : List (Option Int × Group)}
    {k : Option Int} (h : k ∉ keysOf m) :
    m.filter (fun p => p.1 = k) = [] := by
  induction m with
  | nil => rfl
  | cons p rest ih =>
    rw [show keysOf (p :: rest) = p.1 :: keysOf rest from by simp [keysOf],
      List.mem_cons] at h
    push_neg at h
    simp [List.filter_cons, Ne.symm h.1, ih h.2]

/-! ### Stability of the rendering sort -/

lemma filter_orderedInsert (d : Int) (a : Option Int × Group) :
    ∀ (m : List (Option Int × Group)),
      (List.orderedInsert durGE a m).filter (fun p => p.2.duration = d) =
        (if a.2.duration = d then
          a :: m.filter (fun p => p.2.duration = d)
         else m.filter (fun p => p.2.duration = d))
  | [] => by
    by_cases had : a.2.duration = d
    · simp [List.orderedInsert, List.filter_cons, had]
    · simp [List.orderedInsert, List.filter_cons, had]
  | b :: bs => by
    by_cases hle : durGE a b
    · rw [List.orderedInsert_of_le durGE bs hle]
      by_cases had : a.2.duration = d
      · simp [List.filter_cons, had]
      · simp [List.filter_cons, had]
    · have hlt : a.2.duration < b.2.duration := lt_of_not_le hle
      have step : List.orderedInsert durGE a (b :: bs) =
          b :: List.orderedInsert durGE a bs := by
        simp [List.orderedInsert, hle]
      rw [step]
      by_cases had : a.2.duration = d
      · have hbd : ¬ b.2.duration = d := by
          intro hb
          rw [had] at hlt
          rw [hb] at hlt
          exact lt_irrefl d hlt
        simp [List.filter_cons, hbd, filter_orderedInsert d a bs, had]
      · simp [List.filter_cons, filter_orderedInsert d a bs, had]

/-- Python's `sorted` is stable: among items whose sort key (the summed
duration) is equal, the output order is the input order. -/
lemma filter_insertionSort (d : Int) :
    ∀ (l : List (Option Int × Group)),
      (List.insertionSort durGE l).filter (fun p => p.2.duration = d) =
        l.filter (fun p => p.2.duration = d)
  | [] => rfl
  | a :: l => by
    have step : List.insertionSort durGE (a :: l) =
        List.orderedInsert durGE a (List.insertionSort durGE l) := rfl
    rw [step, filter_orderedInsert d a]
    by_cases had : a.2.duration = d
    · simp [List.filter_cons, had, filter_insertionSort d l]
    · simp [List.filter_cons, had, filter_insertionSort d l]

/-- With distinct keys, a successful lookup pins down the unique pair
with that key. -/
lemma filter_key_eq_of_findGroup {m : List (Option Int × Group)}
    {k : Option Int} {g : Group} (hnd : (keysOf m).Nodup)
    (h : findGroup m k = some g) :
    m.filter (fun p => p.1 = k) = [(k, g)] := by
  induction m with
  | nil => simp [findGroup] at h
  | cons p rest ih =>
    obtain ⟨k₀, g₀⟩ := p
    simp [keysOf] at hnd
    by_cases h0 : k₀ = k
    · subst h0
      simp [findGroup] at h
      subst h
      simp [List.filter_cons,
        filter_eq_nil_of_not_mem_keys (by simpa [keysOf] using hnd.1)]
    · simp [findGroup, h0] at h
      simp [List.filter_cons, h0, ih hnd.2 h]

/-! ### String-length and containment helpers -/

lemma le_pyLen_joinLines : ∀ (ls : List String), ∀ l ∈ ls, pyLen l ≤ pyLen (joinLines ls)
  | [], l, h => absurd h (List.not_mem_nil l)
  | [x], l, h => by
    simp at h
    subst h
    simp [joinLines]
  | x :: y :: ys, l, h => by
    have hj : joinLines (x :: y :: ys) = x ++ "\n" ++ joinLines (y :: ys) := rfl
    rw [hj, pyLen_append, pyLen_append]
    rcases List.mem_cons.mp h with h1 | h2
    · subst h1
      omega
    · have := le_pyLen_joinLines (y :: ys) l h2
      omega

lemma strContains_of_chars {s pat : String} (a b : List Char)
    (h : s.data = a ++ (pat.data ++ b)) : strContains s pat = true := by
  simp [strContains, h, hasChars_of_middle]

lemma strEnds_of_chars {s pat : String} (a : List Char)
    (h : s.data = a ++ pat.data) : strEnds s pat = true := by
  have hr : s.data.reverse = pat.data.reverse ++ a.reverse := by
    rw [h, List.reverse_append]
  simp [strEnds, hr, leadsWith_refl_append]

/-! ### URL parsing helpers -/

lemma dropWhile_append_of_ne_nil {p : Char → Bool} :
    ∀ (a b : List Char), a.dropWhile p ≠ [] →
      (a ++ b).dropWhile p = a.dropWhile p ++ b
  | [], _, h => absurd rfl h
  | c :: cs, b, h => by
    by_cases hc : p c
    · rw [List.dropWhile_cons_of_pos hc] at h ⊢
      rw [List.cons_append, List.dropWhile_cons_of_pos hc]
      exact dropWhile_append_of_ne_nil cs b h
    · rw [List.cons_append, List.dropWhile_cons_of_neg hc,
        List.dropWhile_cons_of_neg hc, List.cons_append]

lemma dropWhile_append_of_nil {p : Char → Bool} :
    ∀ (a b : List Char), a.dropWhile p = [] →
      (a ++ b).dropWhile p = b.dropWhile p
  | [], _, _ => rfl
  | c :: cs, b, h => by
    by_cases hc : p c
    · rw [List.dropWhile_cons_of_pos hc] at h
      rw [List.cons_append, List.dropWhile_cons_of_pos hc]
      exact dropWhile_append_of_nil cs b h
    · rw [List.dropWhile_cons_of_neg hc] at h
      exact absurd h (by simp)

lemma splitAtColon_append {s : List Char} (rest : List Char)
    (h : ':' ∉ s) : splitAtColon (s ++ ':' :: rest) = (s, ':' :: rest) := by
  induction s with
  | nil => simp [splitAtColon]
  | cons c cs ih =>
    simp at h
    have hc : ¬ c = ':' := fun hh => h.1 hh.symm
    rw [List.cons_append, splitAtColon]
    simp [hc, ih h.2]

lemma takeWhile_append_host {h : List Char} (l : List Char)
    (hh : '/' ∉ h) (hl : l = [] ∨ l.head? = some '/') :
    (h ++ l).takeWhile (fun c => c ≠ '/') = h := by
  induction h with
  | nil =>
    rcases hl with h0 | h0
    · simp [h0]
    · cases l with
      | nil => rfl
      | cons c cs =>
        simp at h0
        subst h0
        simp [List.takeWhile]
  | cons c cs ih =>
    simp at hh
    have hc : ¬ c = '/' := fun hcc => hh.1 hcc.symm
    rw [List.cons_append, List.takeWhile_cons]
    simp [hc]
    simpa using ih hh.2

lemma dropWhile_rev_nonslash {h : List Char} (rest : List Char)
    (hh : '/' ∉ h) (hne : h ≠ []) :
    (h.reverse ++ rest).dropWhile (fun c => decide (c = '/')) =
      h.reverse ++ rest := by
  cases hrev : h.reverse with
  | nil => exact absurd (by simpa using hrev) hne
  | cons c cs =>
    have hc : c ∈ h := by
      have : c ∈ h.reverse := by rw [hrev]; exact List.mem_cons_self c cs
      simpa using this
    have hcne : ¬ (c = '/') := fun hcc => hh (hcc ▸ hc)
    rw [List.cons_append, List.dropWhile_cons_of_neg (by simpa using hcne)]

/-- Shape of the stored base URL (`config.base_url.rstrip('/')`) for a
well-formed `scheme://host` base with an optional absolute path: the
scheme and authority survive and the path keeps at most a leading-slash
residue. -/
lemma pyRstripSlash_shape (scheme host path : String)
    (hh : '/' ∉ host.data) (hne : host.data ≠ [])
    (hp : path.data = [] ∨ ∃ p', path.data = '/' :: p') :
    ∃ sp : List Char,
      (pyRstripSlash (scheme ++ "://" ++ host ++ path)).data =
        scheme.data ++ ':' :: '/' :: '/' :: (host.data ++ sp) ∧
      (sp = [] ∨ ∃ t, sp = '/' :: t) := by
  have hbase : (scheme ++ "://" ++ host ++ path).data =
      scheme.data ++ ':' :: '/' :: '/' :: (host.data ++ path.data) := by
    have hlit : "://".data = [':', '/', '/'] := rfl
    simp [String.data_append, hlit]
  have hrev : (scheme ++ "://" ++ host ++ path).data.reverse =
      path.data.reverse ++ (host.data.reverse ++
        ('/' :: '/' :: ':' :: scheme.data.reverse)) := by
    rw [hbase]
    simp [List.reverse_append]
  have hdata : (pyRstripSlash (scheme ++ "://" ++ host ++ path)).data =
      ((scheme ++ "://" ++ host ++ path).data.reverse.dropWhile
        (fun c => decide (c = '/'))).reverse := rfl
  rcases hp with hp0 | ⟨p', hp1⟩
  · refine ⟨[], ?_, Or.inl rfl⟩
    rw [hdata, hrev, hp0]
    rw [List.reverse_nil, List.nil_append,
      dropWhile_rev_nonslash _ hh (fun hcc => hne hcc)]
    simp [List.reverse_append]
  · have hPrev : path.data.reverse = p'.reverse ++ ['/'] := by
      rw [hp1]
      simp
    by_cases hD : p'.reverse.dropWhile (fun c => decide (c = '/')) = []
    · -- the whole path is slashes: everything of it is stripped
      refine ⟨[], ?_, Or.inl rfl⟩
      rw [hdata, hrev, hPrev, List.append_assoc,
        dropWhile_append_of_nil _ _ hD,
        show (['/'] ++ (host.data.reverse ++ '/' :: '/' :: ':' :: scheme.data.reverse)) =
          '/' :: (host.data.reverse ++ '/' :: '/' :: ':' :: scheme.data.reverse) from rfl,
        List.dropWhile_cons_of_pos (by simp),
        dropWhile_rev_nonslash _ hh (fun hcc => hne hcc)]
      simp [List.reverse_append]
    · -- a non-slash survives in the path: the residue keeps its lead '/'
      refine ⟨'/' :: (p'.reverse.dropWhile (fun c => decide (c = '/'))).reverse,
        ?_, Or.inr ⟨_, rfl⟩⟩
      rw [hdata, hrev, hPrev, List.append_assoc,
        dropWhile_append_of_ne_nil _ _ hD]
      simp [List.reverse_append]

/-! ## Claims -/

/-- C1: for every list of time entries, the per-group seconds of
`by_project` sum to `total_duration` (= `total_seconds`), the per-group
seconds of `by_activity` do too, and the per-group counts of each
mapping sum to the number of input entries. -/
theorem summary_groupings_preserve_totals (ts : List Entry) :
    groupsDuration (by_project ts) = total_duration ts ∧
    groupsDuration (by_activity ts) = total_duration ts ∧
    groupsCount (by_project ts) = total_entries ts ∧
    groupsCount (by_activity ts) = total_entries ts :=
  ⟨groupsDuration_groupByKey _ ts, groupsDuration_groupByKey _ ts,
   groupsCount_groupByKey _ ts, groupsCount_groupByKey _ ts⟩

/-- C2: `non_billable_hours` is the single subtraction
`total_hours - billable_hours` (not an independent filter-sum), so
`billable_hours + non_billable_hours = total_hours` holds exactly for
the unrounded values. -/
theorem non_billable_hours_single_subtraction (ts : List Entry) :
    non_billable_hours ts = total_hours ts - billable_hours ts ∧
    billable_hours ts + non_billable_hours ts = total_hours ts :=
  ⟨rfl, by rw [non_billable_hours]; ring⟩

/-- C3: when some entries have a missing (`None`) project identifier,
`by_project` holds exactly one group with the distinguished `none` key,
whose seconds and count are the sum of those entries' durations and
their number; likewise for missing activity identifiers in
`by_activity`. -/
theorem missing_ids_single_none_group (ts : List Entry) :
    (ts.filter (fun t => t.project = none) ≠ [] →
      (by_project ts).filter (fun p => p.1 = none) =
        [(none, ⟨keyDuration (fun t => t.project) none ts,
                 keyCount (fun t => t.project) none ts⟩)]) ∧
    (ts.filter (fun t => t.activity = none) ≠ [] →
      (by_activity ts).filter (fun p => p.1 = none) =
        [(none, ⟨keyDuration (fun t => t.activity) none ts,
                 keyCount (fun t => t.activity) none ts⟩)]) := by
  constructor
  · intro hp
    have hany : ts.any (fun t => t.project = none) = true := by
      rcases List.exists_mem_of_ne_nil _ hp with ⟨t, ht⟩
      rw [List.mem_filter] at ht
      exact List.any_eq_true.mpr ⟨t, ht.1, ht.2⟩
    have hfind := findGroup_groupByKey (fun t => t.project) none ts
    rw [hany, if_pos rfl] at hfind
    exact filter_key_eq_of_findGroup
      (nodup_keysOf_groupByKey (fun t => t.project) ts) hfind
  · intro ha
    have hany : ts.any (fun t => t.activity = none) = true := by
      rcases List.exists_mem_of_ne_nil _ ha with ⟨t, ht⟩
      rw [List.mem_filter] at ht
      exact List.any_eq_true.mpr ⟨t, ht.1, ht.2⟩
    have hfind := findGroup_groupByKey (fun t => t.activity) none ts
    rw [hany, if_pos rfl] at hfind
    exact filter_key_eq_of_findGroup
      (nodup_keysOf_groupByKey (fun t => t.activity) ts) hfind

/-- Witness for C3 at a concrete one-entry list whose project identifier
is missing while its activity identifier is present: the project-side
property applies on its own. -/
theorem missing_ids_single_none_group_witness :
    ([⟨some 60, true, none, some 7⟩] : List Entry).filter
        (fun t => t.project = none) ≠ [] ∧
    (by_project [⟨some 60, true, none, some 7⟩]).filter
        (fun p => p.1 = none) = [(none, ⟨60, 1⟩)] := by
  refine ⟨by decide, ?_⟩
  have h := (missing_ids_single_none_group
    [⟨some 60, true, none, some 7⟩]).1 (by decide)
  simpa [keyDuration, keyCount, durOf] using h

/-- C4: for the empty entry list the summary reports zero entries, zero
hours in every field, zero rendered percentages (the zero-total guard
takes the division-free branch), and empty group mappings. -/
theorem empty_list_summary_all_zero :
    total_entries ([] : List Entry) = 0 ∧
    total_hours ([] : List Entry) = 0 ∧
    billable_hours ([] : List Entry) = 0 ∧
    non_billable_hours ([] : List Entry) = 0 ∧
    billablePctValue ([] : List Entry) = 0 ∧
    nonBillablePctValue ([] : List Entry) = 0 ∧
    by_project ([] : List Entry) = [] ∧
    by_activity ([] : List Entry) = [] := by
  refine ⟨rfl, ?_, ?_, ?_, ?_, ?_, rfl, rfl⟩ <;>
    simp [total_hours, billable_hours, non_billable_hours,
      billablePctValue, nonBillablePctValue, total_duration,
      billable_duration]

/-- C9: the rendering loops visit the groups in descending order of
summed seconds; the rendered sequence is a permutation of the mapping;
groups with equal seconds keep the mapping's order (stable sort, no
secondary tiebreak); and the mapping itself lists keys in order of
first encounter in the input. -/
theorem render_order_desc_stable_first_encounter (ts : List Entry) :
    List.Sorted durGE (sortedByProject ts) ∧
    (sortedByProject ts).Perm (by_project ts) ∧
    (∀ d : Int, (sortedByProject ts).filter (fun p => p.2.duration = d) =
      (by_project ts).filter (fun p => p.2.duration = d)) ∧
    keysOf (by_project ts) = firstKeys (ts.map (fun t => t.project)) ∧
    List.Sorted durGE (sortedByActivity ts) ∧
    (sortedByActivity ts).Perm (by_activity ts) ∧
    (∀ d : Int, (sortedByActivity ts).filter (fun p => p.2.duration = d) =
      (by_activity ts).filter (fun p => p.2.duration = d)) ∧
    keysOf (by_activity ts) = firstKeys (ts.map (fun t => t.activity)) :=
  ⟨List.sorted_insertionSort durGE _, List.perm_insertionSort durGE _,
   fun d => filter_insertionSort d _, keysOf_groupByKey _ ts,
   List.sorted_insertionSort durGE _, List.perm_insertionSort durGE _,
   fun d => filter_insertionSort d _, keysOf_groupByKey _ ts⟩

/-- C5 (amended): the error message always contains the numeric status
code and always ends with the remediation hint; it contains the
`message` field's value when the JSON body has one, the raw response
text when the body is not JSON, and the Python `str()` of the parsed
object — not the raw text — when the body is JSON without a `message`
field. -/
theorem error_message_contents_amended (r : HttpResponse) :
    strContains (kimaiErrorMessage r) (toString r.statusCode) = true ∧
    strEnds (kimaiErrorMessage r) remediationHint = true ∧
    (∀ d v, r.jsonBody = some d → dictGet d "message" = some v →
      strContains (kimaiErrorMessage r) (pyStrVal v) = true) ∧
    (r.jsonBody = none → strContains (kimaiErrorMessage r) r.rawText = true) ∧
    (∀ d, r.jsonBody = some d → dictGet d "message" = none →
      strContains (kimaiErrorMessage r) (pyReprDict d) = true) := by
  refine ⟨?_, ?_, ?_, ?_, ?_⟩
  · apply strContains_of_chars ("KIMAI API error (".data)
      (("): " ++ errorDetail r ++
        ". Please check your request parameters and try again.").data)
    simp [kimaiErrorMessage, String.data_append]
  · apply strEnds_of_chars
      (("KIMAI API error (" ++ toString r.statusCode ++ "): " ++
        errorDetail r).data)
    simp [kimaiErrorMessage, remediationHint, String.data_append]
  · intro d v hd hv
    have hdet : errorDetail r = pyStrVal v := by simp [errorDetail, hd, hv]
    apply strContains_of_chars
      (("KIMAI API error (" ++ toString r.statusCode ++ "): ").data)
      (". Please check your request parameters and try again.".data)
    simp [kimaiErrorMessage, hdet, String.data_append]
  · intro hnone
    have hdet : errorDetail r = r.rawText := by simp [errorDetail, hnone]
    apply strContains_of_chars
      (("KIMAI API error (" ++ toString r.statusCode ++ "): ").data)
      (". Please check your request parameters and try again.".data)
    simp [kimaiErrorMessage, hdet, String.data_append]
  · intro d hd hnone
    have hdet : errorDetail r = pyReprDict d := by simp [errorDetail, hd, hnone]
    apply strContains_of_chars
      (("KIMAI API error (" ++ toString r.statusCode ++ "): ").data)
      (". Please check your request parameters and try again.".data)
    simp [kimaiErrorMessage, hdet, String.data_append]

/-- Witness for C5: HTTP 404 with JSON body
`\x7b"message": "Not found"\x7d` yields a message containing both "404"
and "Not found". -/
theorem error_message_contents_amended_witness :
    strContains
      (kimaiErrorMessage ⟨404, "\x7b\"message\": \"Not found\"\x7d",
        some [("message", .pstr "Not found")]⟩) "404" = true ∧
    strContains
      (kimaiErrorMessage ⟨404, "\x7b\"message\": \"Not found\"\x7d",
        some [("message", .pstr "Not found")]⟩) "Not found" = true := by
  have h := error_message_contents_amended
    ⟨404, "\x7b\"message\": \"Not found\"\x7d",
      some [("message", .pstr "Not found")]⟩
  exact ⟨h.1, h.2.2.1 [("message", .pstr "Not found")] (.pstr "Not found") rfl rfl⟩

/-- Counterexample for C5 as written: for a 400 response whose JSON body
has no `message` field, the message carries the Python `str()` of the
parsed dict, not the raw response text — the raw text does not occur in
the message. -/
theorem error_message_json_without_message_ctrex :
    dictGet [("code", PyVal.pint 7)] "message" = none ∧
    strContains
      (kimaiErrorMessage ⟨400, "\x7b\"code\": 7\x7d",
        some [("code", PyVal.pint 7)]⟩)
      "\x7b\"code\": 7\x7d" = false := by
  constructor
  · rfl
  · decide

/-- C8: on the success path, a 204 status or an empty body yields the
synthetic marker without the JSON parser ever being consulted — the
result is the marker for every possible parser, including one that
always fails. -/
theorem empty_body_returns_success_marker (statusCode : Nat)
    (content : String) (parse : String → Except String PyDict)
    (h : statusCode = 204 ∨ content = "") :
    requestSuccessResult statusCode content parse =
      .ok [("success", .pbool true)] := by
  simp [requestSuccessResult, h]

/-- Witness for C8: a 204 response with a non-JSON body and an
always-failing parser still yields the success marker. -/
theorem empty_body_returns_success_marker_witness :
    requestSuccessResult 204 "not json" (fun _ => .error "parse error") =
      .ok [("success", .pbool true)] :=
  empty_body_returns_success_marker 204 "not json" _ (Or.inl rfl)

/-- C7 (amended): text routed through `truncate_if_needed` is capped at
the character limit: it is returned unchanged when it fits, and
otherwise replaced by its prefix of `limit - 50` characters followed by
the truncation marker, which keeps the result within the limit. -/
theorem truncate_if_needed_caps_output (text : String) :
    pyLen (truncate_if_needed text CHARACTER_LIMIT) ≤ CHARACTER_LIMIT ∧
    (pyLen text ≤ CHARACTER_LIMIT →
      truncate_if_needed text CHARACTER_LIMIT = text) ∧
    (CHARACTER_LIMIT < pyLen text →
      truncate_if_needed text CHARACTER_LIMIT =
        pyTake text (CHARACTER_LIMIT - 50) ++ truncationMarker CHARACTER_LIMIT) := by
  by_cases hle : pyLen text ≤ CHARACTER_LIMIT
  · exact ⟨by simp [truncate_if_needed, hle],
      fun _ => by simp [truncate_if_needed, hle],
      fun hgt => absurd hgt (by omega)⟩
  · have hmark : pyLen (truncationMarker CHARACTER_LIMIT) = 44 := by decide
    have htake : pyLen (pyTake text (CHARACTER_LIMIT - 50)) =
        min (CHARACTER_LIMIT - 50) (pyLen text) := by
      simp [pyLen, pyTake]
    refine ⟨?_, fun hfits => absurd hfits hle, fun _ => by simp [truncate_if_needed, hle]⟩
    rw [truncate_if_needed, if_neg hle, pyLen_append, htake, hmark]
    have : CHARACTER_LIMIT = 25000 := rfl
    omega

/-- Witness for C7's amended cap at a short concrete text. -/
theorem truncate_if_needed_caps_output_witness :
    pyLen (truncate_if_needed "abc" CHARACTER_LIMIT) ≤ CHARACTER_LIMIT ∧
    truncate_if_needed "abc" CHARACTER_LIMIT = "abc" :=
  ⟨(truncate_if_needed_caps_output "abc").1,
   (truncate_if_needed_caps_output "abc").2.1 (by decide)⟩

/-- A 26000-character description used to exceed the output cap. -/
def bigDescription : String := String.mk (List.replicate 26000 'a')

lemma pyLen_bigDescription : pyLen bigDescription = 26000 := by
  show (String.mk (List.replicate 26000 'a')).data.length = 26000
  rw [show (String.mk (List.replicate 26000 'a')).data =
    List.replicate 26000 'a' from rfl]
  exact List.length_replicate 26000 'a'

lemma bigDescription_ne_empty : bigDescription ≠ "" := by
  intro h
  have hlen := congrArg pyLen h
  rw [pyLen_bigDescription] at hlen
  simp [pyLen] at hlen

/-- A completed timesheet whose description alone is longer than the
character limit. -/
def bigTimesheet : Timesheet :=
  ⟨some 1, some 2, some 3, some "2025-11-01T08:00:00+0000",
   some "2025-11-01T09:00:00+0000", some 3600, true, false,
   some bigDescription, none, none⟩

lemma desc_line_mem_formatTimesheetLines (t : Timesheet) (s : String)
    (hdesc : t.description = some s) (hne : s ≠ "") :
    ("**Description:** " ++ s) ∈ formatTimesheetLines t := by
  obtain ⟨i0, p0, a0, b0, e0, d0, bl0, ex0, ds0, tg0, rt0⟩ := t
  simp only at hdesc
  subst hdesc
  unfold formatTimesheetLines
  refine List.mem_append_left _ (List.mem_append_left _
    (List.mem_append_right _ ?_))
  dsimp only
  rw [if_neg hne]
  exact List.mem_singleton.mpr rfl

/-- Counterexample for C7 as written: the `get_timesheet` markdown
branch returns the rendered text without truncation, so a timesheet
with a long description produces a tool output longer than the fixed
character limit. -/
theorem get_timesheet_output_exceeds_limit :
    CHARACTER_LIMIT < pyLen (getTimesheetMarkdownOutput bigTimesheet) := by
  have hmem : ("**Description:** " ++ bigDescription) ∈
      formatTimesheetLines bigTimesheet :=
    desc_line_mem_formatTimesheetLines bigTimesheet bigDescription rfl
      bigDescription_ne_empty
  have hle := le_pyLen_joinLines (formatTimesheetLines bigTimesheet) _ hmem
  have hlen : pyLen ("**Description:** " ++ bigDescription) = 26017 := by
    rw [pyLen_append, pyLen_bigDescription]
    decide
  have hout : pyLen (getTimesheetMarkdownOutput bigTimesheet) =
      pyLen (joinLines (formatTimesheetLines bigTimesheet)) := rfl
  rw [hout]
  rw [hlen] at hle
  have : CHARACTER_LIMIT = 25000 := rfl
  omega

/-- C6 (amended): for a well-formed configured base URL
`scheme://host path` (no colon in the scheme, no slash in the non-empty
host, path absent or absolute), the request URL is the base URL's scheme
and authority followed by `/api/` and the endpoint — the base URL's own
path component is discarded by the absolute-path `urljoin`, not
preserved. -/
theorem request_url_drops_base_path (scheme host path endpoint : String)
    (hs : ':' ∉ scheme.data) (hh : '/' ∉ host.data) (hne : host.data ≠ [])
    (hp : path.data = [] ∨ ∃ p', path.data = '/' :: p') :
    requestUrl (scheme ++ "://" ++ host ++ path) endpoint =
      scheme ++ "://" ++ host ++ "/api/" ++ endpoint := by
  obtain ⟨sp, hdata, hsp⟩ := pyRstripSlash_shape scheme host path hh hne hp
  have h1 : splitAtColon (pyRstripSlash (scheme ++ "://" ++ host ++ path)).data =
      (scheme.data, ':' :: ('/' :: '/' :: (host.data ++ sp))) := by
    rw [hdata]
    exact splitAtColon_append _ hs
  have hsp' : (host.data ++ sp).takeWhile (fun c => c ≠ '/') = host.data := by
    apply takeWhile_append_host _ hh
    rcases hsp with h0 | ⟨t, h0⟩
    · exact Or.inl h0
    · right
      rw [h0]
      rfl
  simp only [requestUrl, urljoinAbs, h1]
  rw [show (':' :: ('/' :: '/' :: (host.data ++ sp))).drop 3 = host.data ++ sp
    from rfl]
  rw [hsp']
  apply String.ext
  simp [String.data_append]

/-- Witness for C6's amended statement at a concrete base URL with a
path component. -/
theorem request_url_drops_base_path_witness :
    requestUrl "https://example.com/kimai/" "timesheets" =
      "https://example.com/api/timesheets" := by
  have h := request_url_drops_base_path "https" "example.com" "/kimai/"
    "timesheets" (by decide) (by decide) (by decide)
    (Or.inr ⟨"kimai/".data, rfl⟩)
  simpa using h

/-- Counterexample for C6 as written: a configured base URL with a path
component is not preserved — the code's `urljoin` with the absolute
`/api/...` reference drops `/kimai`, while the claim's formula keeps
it. -/
theorem request_url_base_path_ctrex :
    requestUrl "https://example.com/kimai" "timesheets" =
      "https://example.com/api/timesheets" ∧
    specClaimUrl "https://example.com/kimai" "timesheets" =
      "https://example.com/kimai/api/timesheets" ∧
    requestUrl "https://example.com/kimai" "timesheets" ≠
      specClaimUrl "https://example.com/kimai" "timesheets" := by
  refine ⟨by decide, by decide, by decide⟩

/-- C10: when the fetched timesheet already has an end time, the
`stop_timesheet` branch returns the not-running error text and does not
issue the PATCH. -/
theorem stop_timesheet_not_running_guard (id : Int) (current : Timesheet)
    (e : String) (h : current.end_ = some e) :
    stopTimesheetDecision id current =
      .errorTxt ("❌ Error: Timesheet #" ++ toString id ++
        " is not running (already has an end time).") ∧
    stopTimesheetDecision id current ≠ .patchEnd := by
  constructor
  · simp [stopTimesheetDecision, h]
  · simp [stopTimesheetDecision, h]

/-- Witness for C10 at a concrete completed timesheet. -/
theorem stop_timesheet_not_running_guard_witness :
    stopTimesheetDecision 5
        ⟨some 5, some 1, some 2, some "2025-11-01T08:00:00+0000",
         some "2025-11-01T09:00:00+0000", some 3600, true, false,
         none, none, none⟩ =
      .errorTxt "❌ Error: Timesheet #5 is not running (already has an end time)." := by
  have h := stop_timesheet_not_running_guard 5
    ⟨some 5, some 1, some 2, some "2025-11-01T08:00:00+0000",
     some "2025-11-01T09:00:00+0000", some 3600, true, false,
     none, none, none⟩ "2025-11-01T09:00:00+0000" rfl
  simpa using h.1

end KimaiMCP
